import Mathlib

/-!
Verification of the autodiff engine (`value.py`, `operations.py`).

Shallow embedding choices:

* Python `float` values are modelled as `ℚ` (every finite IEEE-754 double is
  a rational number, and the arithmetic the claims exercise — `+`, `*`, `-`,
  unary negation, exact division, doubling — is exact in both systems).
* The transcendental library functions (`math.exp`, `math.log`, `math.sin`,
  …) are fields of a `MathModel` parameter.  The model carries, as
  hypotheses, the zero-set facts of the ideal functions restricted to
  rational (i.e. exactly representable) inputs: `tan x = 0 ↔ x = 0`,
  `sin x = 0 ↔ x = 0`, `tanh x = 0 ↔ x = 0`, `cos x ≠ 0` — all true of the
  real functions on ℚ because π is irrational.
* Python object identity (`id(v)`), which `backward` uses to deduplicate, is
  modelled by an arena: a graph is a list of nodes and a node reference is
  its index.  Two references are the same Python object iff the indices are
  equal.  Nodes are only ever created by appending, so operand indices are
  strictly smaller than the index of the node that consumes them; this is
  the acyclicity-by-construction invariant `Graph.WF` noted in the source.
* Python exceptions are `Except Err`: a constructor that raises returns
  `.error e` and, since the caller's graph is only replaced on `.ok`, the
  already-built nodes are untouched and no node is produced — exactly the
  observable effect of the exception propagating out of `__add__` etc.
  (The throw-away leaf that `Value(float(other))` may allocate before a
  forward call raises is unreachable garbage in Python and is likewise not
  retained here.)
* `Value._backward` (default `lambda: None`) is never set by any operator
  or method in the repository, so the `v._backward()` call at the end of
  the loop is a no-op on every constructible graph and is omitted.
* ℚ division by zero is total (`x / 0 = 0`) in Lean.  Where the Python code
  would raise `ZeroDivisionError` (`Div.forward`, `Cot.forward`,
  `Coth.forward`) the embedding tests the divisor explicitly and returns
  `.error`, mirroring the exception; `backward`-pass divisions
  (`Div.backward`, `Log.backward`, `Tan.backward`, …) can only see a zero
  divisor on graphs no constructor produces, and there the Lean convention
  applies.
-/

namespace Autodiff

/-- Python exceptions that the engine's code paths can raise. -/
inductive Err where
  /-- `ValueError: math domain error` from `math.log` etc. -/
  | domainError
  /-- `ZeroDivisionError` from `a / b` with `b == 0.0`. -/
  | zeroDivisionError
  /-- `TypeError` from `float(other)` on a non-coercible operand. -/
  | typeCoercionError
  deriving Repr, DecidableEq

/-- The closed set of operation kinds of `operations.py`. -/
inductive Op where
  | add | mul | neg | sub | div | pow
  | exp | log | sin | cos | tan | cot
  | sinh | cosh | tanh | coth
  deriving Repr, DecidableEq

/-- The transcendental functions of Python's `math` module, as used by the
operations, together with the zero-set facts of the ideal real functions
restricted to rational arguments (π is irrational, so no nonzero rational
is a zero of sin/tan or a pole of cos).  `qlog` is only consulted on
positive arguments (the code guards every `math.log` use), `qpow` models
`a ** b` on the inputs where Python returns a float. -/
structure MathModel where
  qexp : ℚ → ℚ
  qlog : ℚ → ℚ
  qsin : ℚ → ℚ
  qcos : ℚ → ℚ
  qtan : ℚ → ℚ
  qsinh : ℚ → ℚ
  qcosh : ℚ → ℚ
  qtanh : ℚ → ℚ
  qpow : ℚ → ℚ → ℚ
  tan_zero : ∀ x : ℚ, qtan x = 0 ↔ x = 0
  sin_zero : ∀ x : ℚ, qsin x = 0 ↔ x = 0
  tanh_zero : ∀ x : ℚ, qtanh x = 0 ↔ x = 0
  cos_ne_zero : ∀ x : ℚ, qcos x ≠ 0

/-- A concrete instance of the model, used to evaluate the development on
concrete inputs.  The particular functions are irrelevant to every claim;
they just have to satisfy the zero-set facts. -/
def defaultModel : MathModel where
  qexp := fun _ => 1
  qlog := fun _ => 0
  qsin := fun x => x
  qcos := fun _ => 1
  qtan := fun x => x
  qsinh := fun x => x
  qcosh := fun _ => 1
  qtanh := fun x => x
  qpow := fun a b => if b.den = 1 then a ^ b.num else 0
  tan_zero := fun _ => Iff.rfl
  sin_zero := fun _ => Iff.rfl
  tanh_zero := fun _ => Iff.rfl
  cos_ne_zero := fun _ => one_ne_zero

/-- `forward` of each operation class in `operations.py`: eager numeric
evaluation, raising the exception Python would raise.

* `Div.forward` is `a / b`, which raises `ZeroDivisionError` iff `b == 0`.
* `Pow.forward` is `a ** b`; `0.0 ** negative` raises `ZeroDivisionError`.
  (For a negative base and non-integral exponent Python produces a complex
  number; no claim touches that case and `qpow` abstracts the result.)
* `Log.forward` is `math.log(x)`, raising `ValueError` iff `x ≤ 0`.
* `Cot.forward` is `1.0 / math.tan(x)`, raising iff `tan x == 0`.
* `Coth.forward` is `1.0 / math.tanh(x)`, raising iff `tanh x == 0`.
* the wildcard row models Python's `TypeError` for a wrong argument count;
  the node constructors always pass the operation's arity, so it is
  unreachable from any code path modelled here. -/
def Op.fwd (m : MathModel) : Op → List ℚ → Except Err ℚ
  | .add, [a, b] => .ok (a + b)
  | .mul, [a, b] => .ok (a * b)
  | .neg, [a] => .ok (-a)
  | .sub, [a, b] => .ok (a - b)
  | .div, [a, b] => if b = 0 then .error .zeroDivisionError else .ok (a / b)
  | .pow, [a, b] =>
      if a = 0 ∧ b < 0 then .error .zeroDivisionError else .ok (m.qpow a b)
  | .exp, [x] => .ok (m.qexp x)
  | .log, [x] => if x ≤ 0 then .error .domainError else .ok (m.qlog x)
  | .sin, [x] => .ok (m.qsin x)
  | .cos, [x] => .ok (m.qcos x)
  | .tan, [x] => .ok (m.qtan x)
  | .cot, [x] =>
      if m.qtan x = 0 then .error .zeroDivisionError else .ok (1 / m.qtan x)
  | .sinh, [x] => .ok (m.qsinh x)
  | .cosh, [x] => .ok (m.qcosh x)
  | .tanh, [x] => .ok (m.qtanh x)
  | .coth, [x] =>
      if m.qtanh x = 0 then .error .zeroDivisionError else .ok (1 / m.qtanh x)
  | _, _ => .error .typeCoercionError

/-- `backward` of each operation class in `operations.py`: local gradient
contributions, one per input, in input order.  `Pow.backward` returns `0.0`
for the exponent whenever the base is not positive (the `if a > 0` guard in
the source).  The wildcard row (wrong argument count) is unreachable from
graphs the constructors build. -/
def Op.bwd (m : MathModel) : Op → ℚ → List ℚ → List ℚ
  | .add, g, [_, _] => [g, g]
  | .mul, g, [a, b] => [g * b, g * a]
  | .neg, g, [_] => [-g]
  | .sub, g, [_, _] => [g, -g]
  | .div, g, [a, b] => [g / b, -g * a / (b * b)]
  | .pow, g, [a, b] =>
      [g * b * m.qpow a (b - 1),
       if a > 0 then g * m.qpow a b * m.qlog a else 0]
  | .exp, g, [x] => [g * m.qexp x]
  | .log, g, [x] => [g / x]
  | .sin, g, [x] => [g * m.qcos x]
  | .cos, g, [x] => [-g * m.qsin x]
  | .tan, g, [x] => [g / (m.qcos x ^ 2)]
  | .cot, g, [x] => [-g / (m.qsin x ^ 2)]
  | .sinh, g, [x] => [g * m.qcosh x]
  | .cosh, g, [x] => [g * m.qsinh x]
  | .tanh, g, [x] => [g * (1 - m.qtanh x ^ 2)]
  | .coth, g, [x] => [-g / (m.qsinh x ^ 2)]
  | _, _, _ => []

/-- A node of the computation graph: `Value.__init__` stores `value`,
`grad` (initialised `0.0`), the producing operation, the operand tuple and
the optional label.  Operand references are arena indices. -/
structure Node where
  value : ℚ
  grad : ℚ
  op : Option Op
  prev : List Nat
  label : Option String
  deriving Repr, DecidableEq

instance : Inhabited Node := ⟨⟨0, 0, none, [], none⟩⟩

/-- The arena of all nodes created so far; a `Value` object is an index. -/
structure Graph where
  nodes : List Node
  deriving Repr, DecidableEq

namespace Graph

def length (g : Graph) : Nat := g.nodes.length

/-- The node at index `i` (default node for out-of-range indices, which no
constructible reference produces). -/
def nodeAt (g : Graph) (i : Nat) : Node := g.nodes.getD i default

def valAt (g : Graph) (i : Nat) : ℚ := (g.nodeAt i).value

def gradAt (g : Graph) (i : Nat) : ℚ := (g.nodeAt i).grad

def prevOf (g : Graph) (i : Nat) : List Nat := (g.nodeAt i).prev

/-- Append a freshly constructed node; its index is the old length. -/
def push (g : Graph) (n : Node) : Graph := ⟨g.nodes ++ [n]⟩

/-- `Value(float(other))`: a fresh leaf wrapping a literal — no operation,
no operands, `grad = 0.0`. -/
def pushLeaf (g : Graph) (q : ℚ) : Graph := g.push ⟨q, 0, none, [], none⟩

/-- Acyclicity-by-construction: every operand of a node was created
earlier, so operand indices are strictly below the node's own index.  Every
graph the constructors build from the empty graph satisfies this. -/
def WFb (g : Graph) : Bool :=
  (List.range g.length).all fun i => (g.prevOf i).all fun p => p < i

def WF (g : Graph) : Prop := g.WFb = true

instance (g : Graph) : Decidable g.WF := by unfold WF; infer_instance

/-- The acyclicity invariant, in usable form: an operand index is strictly
below its consumer's index.  (A `def` producing a proof, so that `buildTopo`
can use it.) -/
def WF.prevLt {g : Graph} (h : g.WF) {i p : Nat} (hp : p ∈ g.prevOf i) :
    p < i := by
  by_cases hi : i < g.length
  · have := List.all_eq_true.mp h i (List.mem_range.mpr hi)
    exact of_decide_eq_true (List.all_eq_true.mp this p hp)
  · exfalso
    have : g.nodeAt i = default := by
      unfold nodeAt
      exact List.getD_eq_default _ _ (Nat.le_of_not_lt hi)
    rw [prevOf, this] at hp
    simp [default] at hp

/-- Set the `grad` field of the node at `v` (no other field changes). -/
def setGrad (g : Graph) (v : Nat) (x : ℚ) : Graph :=
  ⟨g.nodes.set v { g.nodeAt v with grad := x }⟩

/-- `parent.grad += grad` of the accumulation loop. -/
def addGrad (g : Graph) (v : Nat) (x : ℚ) : Graph :=
  g.setGrad v (g.gradAt v + x)

end Graph

/-- The dynamic type of the `other: Any` argument of a binary dunder method:
an existing `Value` (an arena index), a numeric literal that `float(other)`
converts, or an object on which `float(other)` raises `TypeError`. -/
inductive PyObj where
  | node (i : Nat)
  | num (q : ℚ)
  | nonNum
  deriving Repr, DecidableEq

namespace Value

/-- `if not isinstance(other, Value): other = Value(float(other))` — returns
the (possibly extended) graph and the operand's index, or raises the
coercion `TypeError`. -/
def coerceOther (g : Graph) : PyObj → Except Err (Graph × Nat)
  | .node i => .ok (g, i)
  | .num q => .ok (g.pushLeaf q, g.length)
  | .nonNum => .error .typeCoercionError

/-- Common tail of every binary dunder method: run the operation's forward
on the operand values, then construct the node
`Value(value, prev=(i, j), op=op)`.  A forward exception propagates and no
node is produced. -/
def mkBin (m : MathModel) (op : Op) (g : Graph) (i j : Nat) :
    Except Err (Graph × Nat) :=
  match Op.fwd m op [g.valAt i, g.valAt j] with
  | .error e => .error e
  | .ok v => .ok (g.push ⟨v, 0, some op, [i, j], none⟩, g.length)

/-- Common body of every unary method (`__neg__`, `exp`, `log`, …). -/
def mkUnary (m : MathModel) (op : Op) (g : Graph) (i : Nat) :
    Except Err (Graph × Nat) :=
  match Op.fwd m op [g.valAt i] with
  | .error e => .error e
  | .ok v => .ok (g.push ⟨v, 0, some op, [i], none⟩, g.length)

/-- `Value.__add__`: coerce `other`, then build the `Add` node. -/
def vadd (m : MathModel) (g : Graph) (i : Nat) (o : PyObj) :
    Except Err (Graph × Nat) :=
  match coerceOther g o with
  | .error e => .error e
  | .ok (g1, j) => mkBin m .add g1 i j

/-- `Value.__radd__` delegates to `__add__`. -/
def vradd (m : MathModel) (g : Graph) (i : Nat) (o : PyObj) :
    Except Err (Graph × Nat) :=
  vadd m g i o

/-- `Value.__mul__`. -/
def vmul (m : MathModel) (g : Graph) (i : Nat) (o : PyObj) :
    Except Err (Graph × Nat) :=
  match coerceOther g o with
  | .error e => .error e
  | .ok (g1, j) => mkBin m .mul g1 i j

/-- `Value.__rmul__` delegates to `__mul__`. -/
def vrmul (m : MathModel) (g : Graph) (i : Nat) (o : PyObj) :
    Except Err (Graph × Nat) :=
  vmul m g i o

/-- `Value.__neg__`. -/
def vneg (m : MathModel) (g : Graph) (i : Nat) : Except Err (Graph × Nat) :=
  mkUnary m .neg g i

/-- `Value.__sub__`: `prev=(self, other)`, `forward(self.value, other.value)`. -/
def vsub (m : MathModel) (g : Graph) (i : Nat) (o : PyObj) :
    Except Err (Graph × Nat) :=
  match coerceOther g o with
  | .error e => .error e
  | .ok (g1, j) => mkBin m .sub g1 i j

/-- `Value.__rsub__`: `prev=(other, self)`, `forward(other.value, self.value)`. -/
def vrsub (m : MathModel) (g : Graph) (i : Nat) (o : PyObj) :
    Except Err (Graph × Nat) :=
  match coerceOther g o with
  | .error e => .error e
  | .ok (g1, j) => mkBin m .sub g1 j i

/-- `Value.__truediv__`. -/
def vdiv (m : MathModel) (g : Graph) (i : Nat) (o : PyObj) :
    Except Err (Graph × Nat) :=
  match coerceOther g o with
  | .error e => .error e
  | .ok (g1, j) => mkBin m .div g1 i j

/-- `Value.__rtruediv__`: operands swapped. -/
def vrdiv (m : MathModel) (g : Graph) (i : Nat) (o : PyObj) :
    Except Err (Graph × Nat) :=
  match coerceOther g o with
  | .error e => .error e
  | .ok (g1, j) => mkBin m .div g1 j i

/-- `Value.__pow__`. -/
def vpow (m : MathModel) (g : Graph) (i : Nat) (o : PyObj) :
    Except Err (Graph × Nat) :=
  match coerceOther g o with
  | .error e => .error e
  | .ok (g1, j) => mkBin m .pow g1 i j

/-- `Value.__rpow__`: operands swapped. -/
def vrpow (m : MathModel) (g : Graph) (i : Nat) (o : PyObj) :
    Except Err (Graph × Nat) :=
  match coerceOther g o with
  | .error e => .error e
  | .ok (g1, j) => mkBin m .pow g1 j i

/-- The ten named unary methods `exp`, `log`, `sin`, …, `coth`. -/
def unaryMethod (m : MathModel) (op : Op) (g : Graph) (i : Nat) :
    Except Err (Graph × Nat) :=
  mkUnary m op g i

end Value

/-! ## The backward pass (`Value.backward`) -/

/-- The state of `build_topo`: the `visited` id set and the `topo` list. -/
structure TS where
  visited : List Nat
  topo : List Nat
  deriving Repr, DecidableEq

mutual

/-- `build_topo(v)`: if `v` is unvisited, mark it, recurse into its
operands in order, then append `v` (post-order DFS).  `c` is the operand
relation `v ↦ v.prev`; `hc` is the acyclicity-by-construction invariant
that makes the recursion well-founded (operands precede their consumers in
the arena). -/
def dfsNode (c : Nat → List Nat) (hc : ∀ v, ∀ x ∈ c v, x < v) (v : Nat)
    (s : TS) : TS :=
  if v ∈ s.visited then s
  else
    let s2 := dfsKids c hc (c v) v (hc v) ⟨v :: s.visited, s.topo⟩
    ⟨s2.visited, s2.topo ++ [v]⟩
termination_by (v + 1, 0)
decreasing_by
  exact Prod.Lex.left _ _ (Nat.lt_succ_self v)

/-- The `for parent in v.prev` loop of `build_topo`. -/
def dfsKids (c : Nat → List Nat) (hc : ∀ v, ∀ x ∈ c v, x < v)
    (vs : List Nat) (b : Nat) (h : ∀ x ∈ vs, x < b) (s : TS) : TS :=
  match vs with
  | [] => s
  | x :: rest =>
      dfsKids c hc rest b (fun y hy => h y (List.mem_cons_of_mem x hy))
        (dfsNode c hc x s)
termination_by (b, vs.length + 1)
decreasing_by
  · have hx := h x (List.mem_cons_self x rest)
    simp_wf
    rcases Nat.lt_or_ge (x + 1) b with hlt | hge
    · exact Prod.Lex.left _ _ hlt
    · have hxb : x + 1 = b := Nat.le_antisymm (Nat.succ_le_of_lt hx) hge
      rw [← hxb]
      exact Prod.Lex.right _ (Nat.succ_pos _)
  · simp_wf
    exact Prod.Lex.right _ (Nat.lt_succ_self _)

end

/-- The topological order `Value.backward` computes (`build_topo(self)`
starting from empty `visited`/`topo`). -/
def buildTopo (g : Graph) (hg : g.WF) (root : Nat) : List Nat :=
  (dfsNode g.prevOf (fun _ _ hx => hg.prevLt hx) root ⟨[], []⟩).topo

/-- One iteration of the reverse pass: for a node with a producing
operation and nonempty operands, distribute
`op.backward(v.grad, *operand values)` into the operands' `grad` fields
(accumulating).  `Value._backward` is the default no-op (see module
comment). -/
def backStep (m : MathModel) (g : Graph) (v : Nat) : Graph :=
  match (g.nodeAt v).op with
  | none => g
  | some op =>
    if (g.nodeAt v).prev.isEmpty then g
    else
      ((g.nodeAt v).prev.zip
          (op.bwd m (g.nodeAt v).grad ((g.nodeAt v).prev.map g.valAt))).foldl
        (fun h pg => h.addGrad pg.1 pg.2) g

/-- `Value.backward`: build the topological order, reset the `grad` of
every node in it to `0.0`, seed `self.grad = 1.0`, then run the reverse
pass over the order reversed. -/
def backward (m : MathModel) (g : Graph) (hg : g.WF) (root : Nat) : Graph :=
  let topo := buildTopo g hg root
  let g1 := topo.foldl (fun h v => h.setGrad v 0) g
  let g2 := g1.setGrad root 1
  topo.reverse.foldl (fun h v => backStep m h v) g2

/-! ## Derived notions used by the theorems -/

/-- Reachability along operand (`prev`) edges: `ReachC c r v` holds iff the
node `v` is the node `r` itself or an iterated operand of it. -/
inductive ReachC (c : Nat → List Nat) : Nat → Nat → Prop
  | refl (v : Nat) : ReachC c v v
  | step {v p w : Nat} : p ∈ c v → ReachC c p w → ReachC c v w

/-- `v` is reachable from `r` in the graph `g` via operand edges. -/
def Graph.Reaches (g : Graph) (r v : Nat) : Prop := ReachC g.prevOf r v

/-- Each entry of the list appears strictly after all of its operands. -/
def TopoSorted (c : Nat → List Nat) (t : List Nat) : Prop :=
  ∀ i : Fin t.length, ∀ p ∈ c (t.get i),
    ∃ j : Fin t.length, j.1 < i.1 ∧ t.get j = p

/-- A node with its `grad` field zeroed: the construction-time part of a
node — `value`, producing operation, operands and label. -/
def Node.zeroGrad (n : Node) : Node := { n with grad := 0 }

/-- The construction-time skeleton of a graph: every field but `grad`. -/
def Graph.shape (g : Graph) : Graph := ⟨g.nodes.map Node.zeroGrad⟩

/-- The invariant `build_topo` maintains.  `P` is the set of nodes whose
visit is in progress (marked visited, operands being traversed, not yet
appended): `visited` is exactly `P` together with the finished `topo`
entries, pending nodes are not in `topo`, `topo` has no duplicates and is
operands-first. -/
structure DfsInv (c : Nat → List Nat) (P : List Nat) (s : TS) : Prop where
  mem_visited : ∀ x, x ∈ s.visited ↔ x ∈ P ∨ x ∈ s.topo
  pend_disj : ∀ x ∈ P, x ∉ s.topo
  nodup : s.topo.Nodup
  sorted : TopoSorted c s.topo

/-- Everything `dfsNode c hc v` guarantees about its result state. -/
def NodeOut (c : Nat → List Nat) (v : Nat) (s s' : TS) : Prop :=
  (∀ x ∈ s.visited, x ∈ s'.visited) ∧
  s.topo <+: s'.topo ∧
  v ∈ s'.visited ∧
  (∀ x ∈ s'.visited, x ∈ s.visited ∨ ReachC c v x) ∧
  (∀ P, DfsInv c P s → (∀ p ∈ P, v < p) →
    DfsInv c P s' ∧ (v ∈ P ∨ v ∈ s'.topo))

/-- Everything the operand loop `dfsKids c hc vs` guarantees. -/
def KidsOut (c : Nat → List Nat) (vs : List Nat) (s s' : TS) : Prop :=
  (∀ x ∈ s.visited, x ∈ s'.visited) ∧
  s.topo <+: s'.topo ∧
  (∀ x ∈ vs, x ∈ s'.visited) ∧
  (∀ x ∈ s'.visited, x ∈ s.visited ∨ ∃ y ∈ vs, ReachC c y x) ∧
  (∀ P, DfsInv c P s → (∀ x ∈ vs, ∀ p ∈ P, x < p) → DfsInv c P s')

/-! ## Structural lemmas about `setGrad`, `push`, `shape` -/

/-- The number of inputs each operation's `forward` takes. -/
def Op.arity : Op → Nat
  | .add | .mul | .sub | .div | .pow => 2
  | _ => 1

/-- The graph holding the single leaf `x = Value(q)`. -/
def leafGraph (q : ℚ) : Graph := ⟨[⟨q, 0, none, [], none⟩]⟩

/-- The graph after `x = Value(q); y = x * x`: the leaf at index 0 and the
`Mul` node at index 1 with the leaf as both operands. -/
def mulSelfGraph (q : ℚ) : Graph :=
  ⟨[⟨q, 0, none, [], none⟩, ⟨q * q, 0, some .mul, [0, 0], none⟩]⟩

/-- The graph after `b = Value(2.0); c = (-1.0) ** b`: `__rpow__` wraps the
literal `-1.0` into the leaf at index 1 and builds the `Pow` node with
`prev = (wrapped literal, b)`. -/
def rpowGraph (m : MathModel) : Graph :=
  ⟨[⟨2, 0, none, [], none⟩, ⟨-1, 0, none, [], none⟩,
    ⟨m.qpow (-1) 2, 0, some .pow, [1, 0], none⟩]⟩

namespace Graph

theorem nodeAt_eq_getElem? (g : Graph) (i : Nat) :
    g.nodeAt i = (g.nodes[i]?).getD default := by
  rw [nodeAt, List.getD_eq_getElem?_getD]

theorem length_setGrad (g : Graph) (v : Nat) (x : ℚ) :
    (g.setGrad v x).length = g.length := by
  simp [setGrad, length]

theorem nodeAt_setGrad (g : Graph) (v : Nat) (x : ℚ) (i : Nat) :
    (g.setGrad v x).nodeAt i =
      if i = v ∧ v < g.length then { g.nodeAt v with grad := x }
      else g.nodeAt i := by
  rcases Nat.lt_or_ge v g.nodes.length with hv | hv
  · by_cases hiv : i = v
    · subst hiv
      rw [nodeAt_eq_getElem?, setGrad]
      simp only [List.getElem?_set_self hv, Option.getD_some]
      simp [length, hv]
    · rw [nodeAt_eq_getElem?, setGrad]
      simp only [List.getElem?_set_ne (fun h => hiv h.symm)]
      rw [← nodeAt_eq_getElem?]
      simp [hiv]
  · unfold setGrad
    rw [List.set_eq_of_length_le hv]
    have : ¬ v < g.length := Nat.not_lt.mpr hv
    simp [this]

theorem nodeAt_setGrad_ne (g : Graph) {v i : Nat} (x : ℚ) (h : i ≠ v) :
    (g.setGrad v x).nodeAt i = g.nodeAt i := by
  rw [nodeAt_setGrad]; simp [h]

theorem gradAt_setGrad_self (g : Graph) (v : Nat) (x : ℚ) (hv : v < g.length) :
    (g.setGrad v x).gradAt v = x := by
  unfold gradAt; rw [nodeAt_setGrad]; simp [hv]

theorem shape_setGrad (g : Graph) (v : Nat) (x : ℚ) :
    (g.setGrad v x).shape = g.shape := by
  unfold shape setGrad
  refine congrArg Graph.mk (List.ext_getElem? fun i => ?_)
  rw [List.getElem?_map, List.getElem?_map]
  by_cases hiv : i = v
  · subst hiv
    rcases Nat.lt_or_ge i g.nodes.length with hv | hv
    · rw [List.getElem?_set_self hv, List.getElem?_eq_getElem hv]
      have : g.nodeAt i = g.nodes[i] := by
        rw [nodeAt_eq_getElem?, List.getElem?_eq_getElem hv]; rfl
      simp [Node.zeroGrad, this]
    · rw [List.set_eq_of_length_le hv]
  · rw [List.getElem?_set_ne (fun h => hiv h.symm)]

theorem shape_addGrad (g : Graph) (v : Nat) (x : ℚ) :
    (g.addGrad v x).shape = g.shape := by
  unfold addGrad; exact shape_setGrad ..

theorem nodeAt_addGrad_ne (g : Graph) {v i : Nat} (x : ℚ) (h : i ≠ v) :
    (g.addGrad v x).nodeAt i = g.nodeAt i := by
  unfold addGrad; exact nodeAt_setGrad_ne g _ h

/-- Everything but `grad` is recoverable from the shape. -/
theorem length_shape (g : Graph) : g.shape.length = g.length := by
  simp [shape, length]

theorem nodeAt_shape (g : Graph) (i : Nat) :
    g.shape.nodeAt i = (g.nodeAt i).zeroGrad := by
  unfold shape nodeAt
  rcases Nat.lt_or_ge i g.nodes.length with hv | hv
  · rw [List.getD_eq_getElem _ _ hv, List.getD_eq_getElem _ _ (by simpa using hv)]
    simp
  · rw [List.getD_eq_default _ _ hv, List.getD_eq_default _ _ (by simpa using hv)]
    rfl

theorem valAt_of_shape_eq {g₁ g₂ : Graph} (h : g₁.shape = g₂.shape) (i : Nat) :
    g₁.valAt i = g₂.valAt i := by
  have := congrArg (fun g => (Graph.nodeAt g i).value) h
  simpa [nodeAt_shape, Node.zeroGrad] using this

theorem prevOf_of_shape_eq {g₁ g₂ : Graph} (h : g₁.shape = g₂.shape) (i : Nat) :
    g₁.prevOf i = g₂.prevOf i := by
  have := congrArg (fun g => (Graph.nodeAt g i).prev) h
  simpa [nodeAt_shape, Node.zeroGrad] using this

theorem opAt_of_shape_eq {g₁ g₂ : Graph} (h : g₁.shape = g₂.shape) (i : Nat) :
    (g₁.nodeAt i).op = (g₂.nodeAt i).op := by
  have := congrArg (fun g => (Graph.nodeAt g i).op) h
  simpa [nodeAt_shape, Node.zeroGrad] using this

theorem length_of_shape_eq {g₁ g₂ : Graph} (h : g₁.shape = g₂.shape) :
    g₁.length = g₂.length := by
  have := congrArg Graph.length h
  simpa [length_shape] using this

theorem WFb_of_shape_eq {g₁ g₂ : Graph} (h : g₁.shape = g₂.shape) :
    g₁.WFb = g₂.WFb := by
  unfold WFb
  rw [length_of_shape_eq h]
  refine congrArg _ (funext fun i => ?_)
  rw [prevOf_of_shape_eq h]

theorem WF_of_shape_eq {g₁ g₂ : Graph} (h : g₁.shape = g₂.shape) (h₁ : g₁.WF) :
    g₂.WF := by
  unfold WF at *
  rw [← WFb_of_shape_eq h]
  exact h₁

end Graph

/-! ## Correctness of `build_topo` -/

/-- A closed operand set: with every entry it contains the entry's operands. -/
theorem TopoSorted.closed {c : Nat → List Nat} {t : List Nat}
    (h : TopoSorted c t) : ∀ v ∈ t, ∀ p ∈ c v, p ∈ t := by
  intro v hv p hp
  obtain ⟨i, hi⟩ := List.mem_iff_get.mp hv
  obtain ⟨j, _, hj⟩ := h i p (by rw [hi]; exact hp)
  exact hj ▸ List.get_mem t j.1 j.2

theorem topoSorted_nil (c : Nat → List Nat) : TopoSorted c [] := by
  intro i
  exact absurd i.2 (by simp)

/-- Appending a node whose operands are all already present preserves the
operands-first ordering. -/
theorem topoSorted_append {c : Nat → List Nat} {t : List Nat} {v : Nat}
    (h : TopoSorted c t) (hv : ∀ p ∈ c v, p ∈ t) :
    TopoSorted c (t ++ [v]) := by
  intro i p hp
  have hlen : (t ++ [v]).length = t.length + 1 := by simp
  rcases Nat.lt_or_ge i.1 t.length with hi | hi
  · have hget : (t ++ [v]).get i = t.get ⟨i.1, hi⟩ := by
      rw [List.get_eq_getElem, List.get_eq_getElem]
      exact List.getElem_append_left hi
    rw [hget] at hp
    obtain ⟨j, hji, hj⟩ := h ⟨i.1, hi⟩ p hp
    refine ⟨⟨j.1, by rw [hlen]; exact Nat.lt_succ_of_lt j.2⟩, hji, ?_⟩
    rw [List.get_eq_getElem]
    rw [List.get_eq_getElem] at hj
    rw [List.getElem_append_left j.2]
    exact hj
  · have h2 : i.1 < t.length + 1 := by simpa using i.2
    have hiv : i.1 = t.length := by omega
    have hget : (t ++ [v]).get i = v := by
      rw [List.get_eq_getElem]
      rw [List.getElem_append_right hi]
      simp [hiv]
    rw [hget] at hp
    obtain ⟨j, hj⟩ := List.mem_iff_get.mp (hv p hp)
    refine ⟨⟨j.1, by rw [hlen]; exact Nat.lt_succ_of_lt j.2⟩, by rw [hiv]; exact j.2, ?_⟩
    rw [List.get_eq_getElem, List.getElem_append_left j.2]
    rw [List.get_eq_getElem] at hj
    exact hj

/-- Membership in a prev-closed list is preserved along reachability. -/
theorem mem_of_reach_of_closed {c : Nat → List Nat} {t : List Nat}
    (hclosed : ∀ v ∈ t, ∀ p ∈ c v, p ∈ t) {r x : Nat}
    (hr : r ∈ t) (h : ReachC c r x) : x ∈ t := by
  induction h with
  | refl v => exact hr
  | step hp _ ih => exact ih (hclosed _ hr _ hp)

theorem kids_spec {c : Nat → List Nat} {hc : ∀ v, ∀ x ∈ c v, x < v} (b : Nat)
    (IH : ∀ x, x < b → ∀ s, NodeOut c x s (dfsNode c hc x s)) :
    ∀ vs (h : ∀ x ∈ vs, x < b) (s), KidsOut c vs s (dfsKids c hc vs b h s) := by
  intro vs
  induction vs with
  | nil =>
    intro h s
    rw [dfsKids]
    exact ⟨fun x hx => hx, List.prefix_refl _, by simp,
      fun x hx => Or.inl hx, fun P hP _ => hP⟩
  | cons x rest ih =>
    intro h s
    rw [dfsKids]
    have hx : x < b := h x (List.mem_cons_self x rest)
    obtain ⟨n1, n2, n3, n4, n5⟩ := IH x hx s
    obtain ⟨k1, k2, k3, k4, k5⟩ :=
      ih (fun y hy => h y (List.mem_cons_of_mem x hy)) (dfsNode c hc x s)
    refine ⟨fun y hy => k1 y (n1 y hy), n2.trans k2, ?_, ?_, ?_⟩
    · intro y hy
      rcases List.mem_cons.mp hy with rfl | hy'
      · exact k1 y n3
      · exact k3 y hy'
    · intro y hy
      rcases k4 y hy with hy' | ⟨z, hz, hr⟩
      · rcases n4 y hy' with h0 | hr
        · exact Or.inl h0
        · exact Or.inr ⟨x, List.mem_cons_self _ _, hr⟩
      · exact Or.inr ⟨z, List.mem_cons_of_mem _ hz, hr⟩
    · intro P hP hlt
      have h1 := n5 P hP (fun p hp => hlt x (List.mem_cons_self _ _) p hp)
      exact k5 P h1.1 (fun y hy p hp => hlt y (List.mem_cons_of_mem _ hy) p hp)

theorem node_spec {c : Nat → List Nat} {hc : ∀ v, ∀ x ∈ c v, x < v} :
    ∀ v s, NodeOut c v s (dfsNode c hc v s) := by
  intro v
  induction v using Nat.strong_induction_on with
  | _ v IH =>
    intro s
    rw [dfsNode]
    by_cases hv : v ∈ s.visited
    · simp only [if_pos hv]
      refine ⟨fun x hx => hx, List.prefix_refl _, hv, fun x hx => Or.inl hx, ?_⟩
      intro P hP _
      exact ⟨hP, (hP.mem_visited v).mp hv⟩
    · simp only [if_neg hv]
      obtain ⟨k1, k2, k3, k4, k5⟩ :=
        @kids_spec c hc v (fun x hx s' => IH x hx s') (c v) (hc v)
          ⟨v :: s.visited, s.topo⟩
      set s2 := dfsKids c hc (c v) v (hc v) ⟨v :: s.visited, s.topo⟩ with hs2
      refine ⟨?_, ?_, ?_, ?_, ?_⟩
      · exact fun x hx => k1 x (List.mem_cons_of_mem v hx)
      · exact List.IsPrefix.trans k2 (List.prefix_append _ _)
      · exact k1 v (List.mem_cons_self v _)
      · intro x hx
        rcases k4 x hx with hx' | ⟨y, hy, hr⟩
        · rcases List.mem_cons.mp hx' with rfl | hmem
          · exact Or.inr (ReachC.refl x)
          · exact Or.inl hmem
        · exact Or.inr (ReachC.step hy hr)
      · intro P hP hlt
        have hvt : v ∉ s.topo := fun ht => hv ((hP.mem_visited v).mpr (Or.inr ht))
        have hP1 : DfsInv c (v :: P) ⟨v :: s.visited, s.topo⟩ := by
          refine ⟨?_, ?_, hP.nodup, hP.sorted⟩
          · intro x
            constructor
            · intro hx
              rcases List.mem_cons.mp hx with rfl | hx'
              · exact Or.inl (List.mem_cons_self _ _)
              · rcases (hP.mem_visited x).mp hx' with h | h
                · exact Or.inl (List.mem_cons_of_mem _ h)
                · exact Or.inr h
            · intro hx
              rcases hx with hx | hx
              · rcases List.mem_cons.mp hx with rfl | hx'
                · exact List.mem_cons_self _ _
                · exact List.mem_cons_of_mem _ ((hP.mem_visited x).mpr (Or.inl hx'))
              · exact List.mem_cons_of_mem _ ((hP.mem_visited x).mpr (Or.inr hx))
          · intro x hx
            rcases List.mem_cons.mp hx with rfl | hx'
            · exact hvt
            · exact hP.pend_disj x hx'
        have hlt1 : ∀ x ∈ c v, ∀ p ∈ v :: P, x < p := by
          intro x hx p hp
          have hxv := hc v x hx
          rcases List.mem_cons.mp hp with rfl | hp'
          · exact hxv
          · exact Nat.lt_trans hxv (hlt p hp')
        have K5 : DfsInv c (v :: P) s2 := k5 (v :: P) hP1 hlt1
        have hkids_topo : ∀ x ∈ c v, x ∈ s2.topo := by
          intro x hx
          rcases (K5.mem_visited x).mp (k3 x hx) with hx' | hx'
          · rcases List.mem_cons.mp hx' with heq | hp'
            · exact absurd (heq ▸ hc v x hx) (Nat.lt_irrefl v)
            · exact absurd (hlt x hp') (Nat.lt_asymm (hc v x hx))
          · exact hx'
        have hvnot2 : v ∉ s2.topo := K5.pend_disj v (List.mem_cons_self _ _)
        constructor
        · refine ⟨?_, ?_, ?_, ?_⟩
          · intro x
            rw [K5.mem_visited x]
            constructor
            · intro hx
              rcases hx with hx | hx
              · rcases List.mem_cons.mp hx with rfl | hx'
                · exact Or.inr (by simp)
                · exact Or.inl hx'
              · exact Or.inr (by simp [hx])
            · intro hx
              rcases hx with hx | hx
              · exact Or.inl (List.mem_cons_of_mem _ hx)
              · rcases List.mem_append.mp hx with hx' | hx'
                · exact Or.inr hx'
                · exact Or.inl (by simp at hx'; simp [hx'])
          · intro x hx hmem
            rcases List.mem_append.mp hmem with hx' | hx'
            · exact K5.pend_disj x (List.mem_cons_of_mem _ hx) hx'
            · have : x = v := by simpa using hx'
              subst this
              exact Nat.lt_irrefl x (hlt x hx)
          · rw [List.nodup_append]
            refine ⟨K5.nodup, List.nodup_singleton v, ?_⟩
            intro x hx hx'
            have : x = v := by simpa using hx'
            subst this
            exact hvnot2 hx
          · exact topoSorted_append K5.sorted hkids_topo
        · exact Or.inr (by simp)

/-- `build_topo` starting from the empty state: the resulting list is
duplicate-free, contains exactly the nodes reachable from the root, and
lists every node after all of its operands. -/
theorem buildTopo_spec (g : Graph) (hg : g.WF) (root : Nat) :
    (buildTopo g hg root).Nodup ∧
    (∀ v, v ∈ buildTopo g hg root ↔ g.Reaches root v) ∧
    TopoSorted g.prevOf (buildTopo g hg root) := by
  obtain ⟨n1, n2, n3, n4, n5⟩ :=
    @node_spec g.prevOf (fun _ _ hx => hg.prevLt hx) root ⟨[], []⟩
  have hP0 : DfsInv g.prevOf [] ⟨[], []⟩ :=
    ⟨by simp, by simp, List.nodup_nil, topoSorted_nil _⟩
  obtain ⟨hInv, hroot⟩ := n5 [] hP0 (by simp)
  have hroot' : root ∈ (dfsNode g.prevOf (fun _ _ hx => hg.prevLt hx) root ⟨[], []⟩).topo := by
    rcases hroot with h | h
    · exact absurd h (List.not_mem_nil root)
    · exact h
  refine ⟨hInv.nodup, ?_, hInv.sorted⟩
  intro v
  constructor
  · intro hv
    have hvis := (hInv.mem_visited v).mpr (Or.inr hv)
    rcases n4 v hvis with h | h
    · exact absurd h (List.not_mem_nil v)
    · exact h
  · intro hr
    exact mem_of_reach_of_closed hInv.sorted.closed hroot' hr

/-- The root is in its own topological order. -/
theorem root_mem_buildTopo (g : Graph) (hg : g.WF) (root : Nat) :
    root ∈ buildTopo g hg root :=
  ((buildTopo_spec g hg root).2.1 root).mpr (ReachC.refl root)

/-- The topological order is closed under operand edges. -/
theorem buildTopo_closed (g : Graph) (hg : g.WF) (root : Nat) :
    ∀ v ∈ buildTopo g hg root, ∀ p ∈ g.prevOf v, p ∈ buildTopo g hg root :=
  (buildTopo_spec g hg root).2.2.closed

/-- `build_topo` only looks at the operand structure, never at values,
gradients or labels. -/
theorem dfsNode_congr {c c' : Nat → List Nat} (hcc : c = c')
    (hc : ∀ v, ∀ x ∈ c v, x < v) (hc' : ∀ v, ∀ x ∈ c' v, x < v)
    (v : Nat) (s : TS) : dfsNode c hc v s = dfsNode c' hc' v s := by
  subst hcc
  rw [Subsingleton.elim hc hc']

theorem buildTopo_congr {g₁ g₂ : Graph} (h : g₁.prevOf = g₂.prevOf)
    (h₁ : g₁.WF) (h₂ : g₂.WF) (root : Nat) :
    buildTopo g₁ h₁ root = buildTopo g₂ h₂ root :=
  congrArg TS.topo (dfsNode_congr h _ _ root ⟨[], []⟩)

/-! ## The gradient phases of `backward` -/

namespace Graph

theorem gradAt_oor (g : Graph) {i : Nat} (h : g.length ≤ i) : g.gradAt i = 0 := by
  unfold gradAt nodeAt
  rw [List.getD_eq_default _ _ h]
  rfl

theorem gradAt_setGrad (g : Graph) (v : Nat) (x : ℚ) (i : Nat) :
    (g.setGrad v x).gradAt i =
      if i = v ∧ v < g.length then x else g.gradAt i := by
  unfold gradAt
  rw [nodeAt_setGrad]
  by_cases h : i = v ∧ v < g.length <;> simp [h]

theorem gradAt_addGrad (g : Graph) (v : Nat) (x : ℚ) (i : Nat) :
    (g.addGrad v x).gradAt i =
      if i = v ∧ v < g.length then g.gradAt v + x else g.gradAt i := by
  unfold addGrad
  rw [gradAt_setGrad]

end Graph

/-- After the reset loop, every node of the list has gradient `0` and the
others are untouched.  (An out-of-range index also reads gradient `0`:
the default node's `grad` is `0`.) -/
theorem gradAt_resetFold (t : List Nat) (g : Graph) (i : Nat) :
    (t.foldl (fun h v => h.setGrad v 0) g).gradAt i =
      if i ∈ t then 0 else g.gradAt i := by
  induction t generalizing g with
  | nil => simp
  | cons x rest ih =>
    simp only [List.foldl_cons]
    rw [ih]
    by_cases hmem : i ∈ rest
    · simp [hmem, List.mem_cons, or_true]
    · rw [Graph.gradAt_setGrad]
      by_cases hix : i = x
      · subst hix
        by_cases hlen : i < g.length
        · simp [hlen, hmem]
        · simp [hlen, hmem, g.gradAt_oor (Nat.le_of_not_lt hlen)]
      · simp [hix, hmem]

theorem nodeAt_resetFold_of_not_mem (t : List Nat) :
    ∀ (g : Graph) {i : Nat}, i ∉ t →
      (t.foldl (fun h v => h.setGrad v 0) g).nodeAt i = g.nodeAt i := by
  induction t with
  | nil => intro g i _; rfl
  | cons x rest ih =>
    intro g i hi
    simp only [List.foldl_cons]
    rw [ih _ (fun h => hi (List.mem_cons_of_mem _ h))]
    exact g.nodeAt_setGrad_ne _ (fun h => hi (h ▸ List.mem_cons_self x rest))

theorem shape_resetFold (t : List Nat) (g : Graph) :
    (t.foldl (fun h v => h.setGrad v 0) g).shape = g.shape := by
  induction t generalizing g with
  | nil => rfl
  | cons x rest ih =>
    simp only [List.foldl_cons]
    rw [ih, Graph.shape_setGrad]

/-- The accumulation loop `for parent, grad in zip(...)`. -/
theorem shape_accFold (l : List (Nat × ℚ)) (g : Graph) :
    (l.foldl (fun h pg => h.addGrad pg.1 pg.2) g).shape = g.shape := by
  induction l generalizing g with
  | nil => rfl
  | cons x rest ih =>
    simp only [List.foldl_cons]
    rw [ih, Graph.shape_addGrad]

theorem nodeAt_accFold_of_not_mem (l : List (Nat × ℚ)) (g : Graph) {i : Nat}
    (hi : ∀ pg ∈ l, pg.1 ≠ i) :
    (l.foldl (fun h pg => h.addGrad pg.1 pg.2) g).nodeAt i = g.nodeAt i := by
  induction l generalizing g with
  | nil => rfl
  | cons x rest ih =>
    simp only [List.foldl_cons]
    rw [ih _ (fun pg hpg => hi pg (List.mem_cons_of_mem _ hpg))]
    exact g.nodeAt_addGrad_ne _
      (fun h => hi x (List.mem_cons_self x rest) h.symm)

theorem shape_backStep (m : MathModel) (g : Graph) (v : Nat) :
    (backStep m g v).shape = g.shape := by
  unfold backStep
  split
  · rfl
  · split
    · rfl
    · exact shape_accFold _ _

/-- `backStep` writes only into the operands of the node it processes. -/
theorem nodeAt_backStep_of_not_mem (m : MathModel) (g : Graph) (v : Nat)
    {i : Nat} (hi : i ∉ g.prevOf v) :
    (backStep m g v).nodeAt i = g.nodeAt i := by
  unfold backStep
  split
  · rfl
  · split
    · rfl
    · refine nodeAt_accFold_of_not_mem _ _ (fun pg hpg => ?_)
      intro hpgi
      exact hi (hpgi ▸ (List.of_mem_zip hpg).1)

theorem shape_revFold (m : MathModel) (L : List Nat) (g : Graph) :
    (L.foldl (fun h v => backStep m h v) g).shape = g.shape := by
  induction L generalizing g with
  | nil => rfl
  | cons x rest ih =>
    simp only [List.foldl_cons]
    rw [ih, shape_backStep]

/-- The reverse pass leaves alone every index that is an operand of none of
the processed nodes (`g0` is a shape reference for the operand relation). -/
theorem nodeAt_revFold_of_not_mem (m : MathModel) {g0 : Graph} {i : Nat} :
    ∀ (L : List Nat) (h : Graph), h.shape = g0.shape →
      (∀ v ∈ L, i ∉ g0.prevOf v) →
      (L.foldl (fun h v => backStep m h v) h).nodeAt i = h.nodeAt i := by
  intro L
  induction L with
  | nil => intro h _ _; rfl
  | cons x rest ih =>
    intro h hsh hmem
    simp only [List.foldl_cons]
    rw [ih (backStep m h x) (by rw [shape_backStep]; exact hsh)
      (fun v hv => hmem v (List.mem_cons_of_mem _ hv))]
    apply nodeAt_backStep_of_not_mem
    rw [Graph.prevOf_of_shape_eq hsh]
    exact hmem x (List.mem_cons_self _ _)

/-- Accumulating the same contribution list into two graphs that agree on a
set `T` of gradients (and have the same shape) keeps them agreeing on `T`. -/
theorem gradAt_accFold_congr (T : Nat → Prop) :
    ∀ (l : List (Nat × ℚ)) {g₁ g₂ : Graph}, g₁.shape = g₂.shape →
      (∀ i, T i → g₁.gradAt i = g₂.gradAt i) →
      ∀ i, T i →
        (l.foldl (fun h pg => h.addGrad pg.1 pg.2) g₁).gradAt i =
        (l.foldl (fun h pg => h.addGrad pg.1 pg.2) g₂).gradAt i := by
  intro l
  induction l with
  | nil => intro g₁ g₂ _ hagree i hi; exact hagree i hi
  | cons x rest ih =>
    intro g₁ g₂ hsh hagree i hi
    simp only [List.foldl_cons]
    refine ih (by rw [Graph.shape_addGrad, Graph.shape_addGrad, hsh]) ?_ i hi
    intro j hj
    rw [Graph.gradAt_addGrad, Graph.gradAt_addGrad,
      Graph.length_of_shape_eq hsh]
    by_cases hjx : j = x.1 ∧ x.1 < g₂.length
    · simp only [hjx, if_true]
      rw [hagree x.1 (hjx.1 ▸ hj)]
    · simp only [hjx, if_false]
      exact hagree j hj

/-- One reverse step at a node of `T` keeps two `T`-agreeing, shape-equal
graphs agreeing on `T`. -/
theorem gradAt_backStep_congr (m : MathModel) (T : Nat → Prop)
    {g₁ g₂ : Graph} (hsh : g₁.shape = g₂.shape)
    (hagree : ∀ i, T i → g₁.gradAt i = g₂.gradAt i)
    {v : Nat} (hv : T v) :
    ∀ i, T i → (backStep m g₁ v).gradAt i = (backStep m g₂ v).gradAt i := by
  intro i hi
  unfold backStep
  have hop := Graph.opAt_of_shape_eq hsh v
  have hprev := Graph.prevOf_of_shape_eq hsh v
  have hval : g₁.valAt = g₂.valAt := funext (Graph.valAt_of_shape_eq hsh)
  have hgrad : (g₁.nodeAt v).grad = (g₂.nodeAt v).grad := hagree v hv
  cases hop2 : (g₂.nodeAt v).op with
  | none =>
    rw [hop2] at hop
    simp only [hop, hop2]
    exact hagree i hi
  | some op =>
    rw [hop2] at hop
    simp only [hop, hop2]
    rw [show (g₁.nodeAt v).prev = (g₂.nodeAt v).prev from hprev]
    by_cases hempty : (g₂.nodeAt v).prev.isEmpty
    · simp only [hempty, if_true]
      exact hagree i hi
    · simp only [hempty, Bool.false_eq_true, if_false]
      rw [show (g₁.nodeAt v).grad = (g₂.nodeAt v).grad from hgrad, hval]
      exact gradAt_accFold_congr T _ hsh hagree i hi

/-- The whole reverse pass over a list of `T`-nodes preserves `T`-agreement
of gradients between shape-equal graphs. -/
theorem gradAt_revFold_congr (m : MathModel) (T : Nat → Prop) :
    ∀ (L : List Nat), (∀ v ∈ L, T v) → ∀ {g₁ g₂ : Graph},
      g₁.shape = g₂.shape →
      (∀ i, T i → g₁.gradAt i = g₂.gradAt i) →
      ∀ i, T i →
        (L.foldl (fun h v => backStep m h v) g₁).gradAt i =
        (L.foldl (fun h v => backStep m h v) g₂).gradAt i := by
  intro L
  induction L with
  | nil => intro _ g₁ g₂ _ hagree i hi; exact hagree i hi
  | cons x rest ih =>
    intro hL g₁ g₂ hsh hagree i hi
    simp only [List.foldl_cons]
    refine ih (fun v hv => hL v (List.mem_cons_of_mem _ hv))
      (by rw [shape_backStep, shape_backStep, hsh]) ?_ i hi
    exact gradAt_backStep_congr m T hsh hagree (hL x (List.mem_cons_self _ _))

/-! ## `backward`: frame and idempotence -/

theorem shape_backward (m : MathModel) (g : Graph) (hg : g.WF) (root : Nat) :
    (backward m g hg root).shape = g.shape := by
  unfold backward
  rw [shape_revFold, Graph.shape_setGrad, shape_resetFold]

theorem backward_WF (m : MathModel) (g : Graph) (hg : g.WF) (root : Nat) :
    (backward m g hg root).WF :=
  Graph.WF_of_shape_eq (shape_backward m g hg root).symm hg

/-- Nodes not reachable from the root are untouched by `backward`:
not reset, not seeded, not accumulated into. -/
theorem nodeAt_backward_of_unreachable (m : MathModel) (g : Graph)
    (hg : g.WF) (root : Nat) {i : Nat} (h : ¬ g.Reaches root i) :
    (backward m g hg root).nodeAt i = g.nodeAt i := by
  have hmem : i ∉ buildTopo g hg root :=
    fun hi => h (((buildTopo_spec g hg root).2.1 i).mp hi)
  have hroot : i ≠ root := fun he => h (he ▸ ReachC.refl root)
  unfold backward
  have hsh2 : ((((buildTopo g hg root).foldl
      (fun h v => h.setGrad v 0) g).setGrad root 1)).shape = g.shape := by
    rw [Graph.shape_setGrad, shape_resetFold]
  rw [nodeAt_revFold_of_not_mem m _ _ hsh2 ?_]
  · rw [Graph.nodeAt_setGrad_ne _ _ hroot, nodeAt_resetFold_of_not_mem _ _ hmem]
  · intro v hv hpi
    exact hmem (buildTopo_closed g hg root v (List.mem_reverse.mp hv) i hpi)

/-- A node is determined by its construction-time part and its gradient. -/
theorem Node.eq_of_zeroGrad_eq {n₁ n₂ : Node} (h : n₁.zeroGrad = n₂.zeroGrad)
    (hg : n₁.grad = n₂.grad) : n₁ = n₂ := by
  cases n₁ with | mk v g o p l =>
  cases n₂ with | mk v' g' o' p' l' =>
  simp only [Node.zeroGrad, Node.mk.injEq] at h hg ⊢
  exact ⟨h.1, hg, h.2.2⟩

theorem Graph.ext_nodeAt {g₁ g₂ : Graph} (hl : g₁.length = g₂.length)
    (h : ∀ i, i < g₁.length → g₁.nodeAt i = g₂.nodeAt i) : g₁ = g₂ := by
  cases g₁ with | mk l₁ =>
  cases g₂ with | mk l₂ =>
  refine congrArg Graph.mk (List.ext_getElem hl ?_)
  intro i hi₁ hi₂
  have := h i hi₁
  rw [nodeAt_eq_getElem?, nodeAt_eq_getElem?, List.getElem?_eq_getElem hi₁,
    List.getElem?_eq_getElem hi₂] at this
  simpa using this

theorem zeroGrad_nodeAt_of_shape_eq {g₁ g₂ : Graph} (h : g₁.shape = g₂.shape)
    (i : Nat) : (g₁.nodeAt i).zeroGrad = (g₂.nodeAt i).zeroGrad := by
  have h2 := congrArg (fun g => Graph.nodeAt g i) h
  simp only at h2
  rwa [Graph.nodeAt_shape, Graph.nodeAt_shape] at h2

/-- Two shape-equal graphs get identical gradients on the (shared)
topological order of a root: the reset erases any difference in incoming
gradients, so `backward` is insensitive to the gradient history. -/
theorem gradAt_backward_congr (m : MathModel) {g₁ g₂ : Graph}
    (h₁ : g₁.WF) (h₂ : g₂.WF) (hsh : g₁.shape = g₂.shape) (root : Nat) :
    ∀ i ∈ buildTopo g₁ h₁ root,
      (backward m g₁ h₁ root).gradAt i = (backward m g₂ h₂ root).gradAt i := by
  intro i hi
  have hprev : g₁.prevOf = g₂.prevOf := funext (Graph.prevOf_of_shape_eq hsh)
  have htopo : buildTopo g₂ h₂ root = buildTopo g₁ h₁ root :=
    buildTopo_congr hprev.symm h₂ h₁ root
  unfold backward
  rw [htopo]
  have hlen₁ : ((buildTopo g₁ h₁ root).foldl (fun h v => h.setGrad v 0) g₁).length
      = g₁.length := Graph.length_of_shape_eq (shape_resetFold _ _)
  have hlen₂ : ((buildTopo g₁ h₁ root).foldl (fun h v => h.setGrad v 0) g₂).length
      = g₂.length := Graph.length_of_shape_eq (shape_resetFold _ _)
  refine gradAt_revFold_congr m (fun j => j ∈ buildTopo g₁ h₁ root) _
    (fun v hv => List.mem_reverse.mp hv) ?_ ?_ i hi
  · rw [Graph.shape_setGrad, Graph.shape_setGrad, shape_resetFold,
      shape_resetFold, hsh]
  · intro j hj
    rw [Graph.gradAt_setGrad, Graph.gradAt_setGrad, gradAt_resetFold,
      gradAt_resetFold, hlen₁, hlen₂, Graph.length_of_shape_eq hsh]
    by_cases hc : j = root ∧ root < g₂.length
    · simp [hc]
    · simp [hc, hj]

/-- Calling `backward` a second time on the same root reproduces the first
call's graph exactly: reachable gradients are recomputed to the same
values, unreachable nodes are not touched at all, and nothing but `grad`
ever changes. -/
theorem backward_backward (m : MathModel) (g : Graph) (hg : g.WF)
    (root : Nat) :
    backward m (backward m g hg root) (backward_WF m g hg root) root =
      backward m g hg root := by
  have hsh : (backward m g hg root).shape = g.shape := shape_backward m g hg root
  have hsh2 : (backward m (backward m g hg root) (backward_WF m g hg root) root).shape
      = (backward m g hg root).shape :=
    shape_backward m _ (backward_WF m g hg root) root
  have htopo : buildTopo (backward m g hg root) (backward_WF m g hg root) root
      = buildTopo g hg root :=
    buildTopo_congr (funext (Graph.prevOf_of_shape_eq hsh)) _ hg root
  refine Graph.ext_nodeAt (Graph.length_of_shape_eq hsh2) ?_
  intro i _
  by_cases hi : i ∈ buildTopo g hg root
  · refine Node.eq_of_zeroGrad_eq (zeroGrad_nodeAt_of_shape_eq hsh2 i) ?_
    have := gradAt_backward_congr m (backward_WF m g hg root) hg hsh root i
      (htopo ▸ hi)
    calc (backward m (backward m g hg root) (backward_WF m g hg root) root).gradAt i
        = (backward m g hg root).gradAt i := this
      _ = (backward m g hg root).gradAt i := rfl
  · have hunreach : ¬ (backward m g hg root).Reaches root i := by
      intro hr
      have : (backward m g hg root).Reaches root i ↔ g.Reaches root i := by
        unfold Graph.Reaches
        rw [funext (Graph.prevOf_of_shape_eq hsh)]
      exact hi (((buildTopo_spec g hg root).2.1 i).mpr (this.mp hr))
    exact nodeAt_backward_of_unreachable m _ (backward_WF m g hg root) root
      hunreach

/-! ## Push lemmas and concrete well-formedness facts -/

theorem Graph.length_push (g : Graph) (n : Node) :
    (g.push n).length = g.length + 1 := by
  simp [Graph.push, Graph.length]

theorem Graph.nodeAt_push_self (g : Graph) (n : Node) :
    (g.push n).nodeAt g.length = n := by
  rw [Graph.nodeAt_eq_getElem?]
  show ((g.nodes ++ [n])[g.nodes.length]?).getD default = n
  rw [List.getElem?_concat_length]
  rfl

theorem Graph.nodeAt_push_lt (g : Graph) (n : Node) {i : Nat}
    (h : i < g.length) : (g.push n).nodeAt i = g.nodeAt i := by
  rw [Graph.nodeAt_eq_getElem?, Graph.nodeAt_eq_getElem?]
  show ((g.nodes ++ [n])[i]?).getD default = _
  rw [List.getElem?_append_left h]

theorem Graph.valAt_push_lt (g : Graph) (n : Node) {i : Nat}
    (h : i < g.length) : (g.push n).valAt i = g.valAt i := by
  unfold Graph.valAt
  rw [Graph.nodeAt_push_lt g n h]

theorem mulSelfGraph_wf (q : ℚ) : (mulSelfGraph q).WF := rfl

theorem rpowGraph_wf (m : MathModel) : (rpowGraph m).WF := rfl

/-! ## The claims -/

/-- C1: for a leaf `x = Value(q)`, building `y = x * x` — one `Mul` node
receiving `x` as both operands, exactly what `Value.__mul__` produces —
and then calling `y.backward()` leaves `x.grad = 2 * x.value`: the two
gradient contributions flowing into the shared operand are summed by
`parent.grad += grad`, not overwritten. -/
theorem claim1_shared_operand_accumulation (m : MathModel) (q : ℚ) :
    Value.vmul m (leafGraph q) 0 (.node 0) = .ok (mulSelfGraph q, 1) ∧
    (mulSelfGraph q).valAt 0 = q ∧
    (backward m (mulSelfGraph q) (mulSelfGraph_wf q) 1).gradAt 0 = 2 * q := by
  refine ⟨rfl, rfl, ?_⟩
  have htopo : buildTopo (mulSelfGraph q) (mulSelfGraph_wf q) 1 = [0, 1] := by
    simp [buildTopo, dfsNode, dfsKids, Graph.prevOf, Graph.nodeAt, mulSelfGraph,
      List.getD]
  unfold backward
  rw [htopo]
  simp [backStep, Graph.setGrad, Graph.addGrad, Graph.gradAt, Graph.nodeAt,
    Graph.valAt, mulSelfGraph, List.getD, Op.bwd, Graph.length]
  ring

/-- C2: the topological order `backward` builds contains every node
reachable from the root exactly once (deduplication by node identity:
arena index), no other node, and places each node strictly after all of
its operands. -/
theorem claim2_topo_order (g : Graph) (hg : g.WF) (root : Nat) :
    (∀ v, g.Reaches root v → (buildTopo g hg root).count v = 1) ∧
    (∀ v, v ∈ buildTopo g hg root ↔ g.Reaches root v) ∧
    TopoSorted g.prevOf (buildTopo g hg root) := by
  obtain ⟨hnd, hmem, hsort⟩ := buildTopo_spec g hg root
  exact ⟨fun v hv => List.count_eq_one_of_mem hnd ((hmem v).mpr hv),
    hmem, hsort⟩

theorem claim2_witness :
    (buildTopo (mulSelfGraph 3) (mulSelfGraph_wf 3) 1).count 0 = 1 :=
  (claim2_topo_order (mulSelfGraph 3) (mulSelfGraph_wf 3) 1).1 0
    (ReachC.step (by decide) (ReachC.refl 0))

/-- C3: running `backward()` a second time on the same root, with the graph
unchanged in between, reproduces exactly the same gradient in every
reachable node — the reset-then-accumulate scheme is idempotent.  (The
proof shows the second run reproduces the whole graph, `backward_backward`;
the claim's statement is the reachable-gradient consequence.) -/
theorem claim3_backward_idempotent (m : MathModel) (g : Graph) (hg : g.WF)
    (root : Nat) (v : Nat) (_hv : g.Reaches root v) :
    (backward m (backward m g hg root) (backward_WF m g hg root) root).gradAt v
      = (backward m g hg root).gradAt v := by
  rw [backward_backward]

theorem claim3_witness :
    (backward defaultModel
        (backward defaultModel (mulSelfGraph 3) (mulSelfGraph_wf 3) 1)
        (backward_WF defaultModel (mulSelfGraph 3) (mulSelfGraph_wf 3) 1)
        1).gradAt 0
      = (backward defaultModel (mulSelfGraph 3) (mulSelfGraph_wf 3) 1).gradAt 0 :=
  claim3_backward_idempotent defaultModel (mulSelfGraph 3) (mulSelfGraph_wf 3)
    1 0 (ReachC.step (by decide) (ReachC.refl 0))

/-- C4: `Pow.backward` returns exactly `0.0` for the exponent's gradient
whenever the base is not positive, and in the concrete scenario
`b = Value(2.0); c = (-1.0) ** b; c.backward()` the trainable exponent ends
with `b.grad = 0.0` exactly. -/
theorem claim4_pow_nonpositive_base (m : MathModel) :
    (∀ gr a b : ℚ, a ≤ 0 →
      Op.bwd m .pow gr [a, b] = [gr * b * m.qpow a (b - 1), 0]) ∧
    Value.vrpow m (leafGraph 2) 0 (.num (-1)) = .ok (rpowGraph m, 2) ∧
    (backward m (rpowGraph m) (rpowGraph_wf m) 2).gradAt 0 = 0 := by
  refine ⟨?_, rfl, ?_⟩
  · intro gr a b ha
    simp [Op.bwd, not_lt.mpr ha]
  · have htopo : buildTopo (rpowGraph m) (rpowGraph_wf m) 2 = [1, 0, 2] := by
      simp [buildTopo, dfsNode, dfsKids, Graph.prevOf, Graph.nodeAt, rpowGraph,
        List.getD]
    unfold backward
    rw [htopo]
    have hneg : ¬ ((-1 : ℚ) > 0) := by norm_num
    simp [backStep, Graph.setGrad, Graph.addGrad, Graph.gradAt, Graph.nodeAt,
      Graph.valAt, rpowGraph, List.getD, Op.bwd, Graph.length, hneg]

theorem claim4_witness :
    Op.bwd defaultModel .pow 1 [-1, 2] =
      [1 * 2 * defaultModel.qpow (-1) (2 - 1), 0] :=
  (claim4_pow_nonpositive_base defaultModel).1 1 (-1) 2 (by norm_num)

/-- C5: the forward evaluations of `Log`, `Tan`, `Cot` and `Coth` raise
exactly when the corresponding real function is undefined at the (exactly
representable, hence rational) input — non-positive argument for log, a
zero of cos for tan (no such input exists), a zero of sin for cot (only
`0`), zero for coth — and a forward exception propagates out of the node
constructor unchanged instead of being swallowed. -/
theorem claim5_domain_errors (m : MathModel) :
    (∀ x : ℚ, (∃ e, Op.fwd m .log [x] = .error e) ↔ x ≤ 0) ∧
    (∀ x : ℚ, (∃ e, Op.fwd m .tan [x] = .error e) ↔ m.qcos x = 0) ∧
    (∀ x : ℚ, (∃ e, Op.fwd m .cot [x] = .error e) ↔ m.qsin x = 0) ∧
    (∀ x : ℚ, (∃ e, Op.fwd m .coth [x] = .error e) ↔ x = 0) ∧
    (∀ (op : Op) (g : Graph) (i : Nat) (e : Err),
      Op.fwd m op [g.valAt i] = .error e →
      Value.mkUnary m op g i = .error e) := by
  refine ⟨?_, ?_, ?_, ?_, ?_⟩
  · intro x
    constructor
    · rintro ⟨e, he⟩
      by_contra hx
      simp [Op.fwd, hx] at he
    · intro hx
      exact ⟨.domainError, by simp [Op.fwd, hx]⟩
  · intro x
    constructor
    · rintro ⟨e, he⟩
      simp [Op.fwd] at he
    · intro hc
      exact absurd hc (m.cos_ne_zero x)
  · intro x
    constructor
    · rintro ⟨e, he⟩
      by_cases h : m.qtan x = 0
      · exact (m.sin_zero x).mpr ((m.tan_zero x).mp h)
      · simp [Op.fwd, h] at he
    · intro hs
      exact ⟨.zeroDivisionError,
        by simp [Op.fwd, (m.tan_zero x).mpr ((m.sin_zero x).mp hs)]⟩
  · intro x
    constructor
    · rintro ⟨e, he⟩
      by_cases h : m.qtanh x = 0
      · exact (m.tanh_zero x).mp h
      · simp [Op.fwd, h] at he
    · intro hx
      exact ⟨.zeroDivisionError, by simp [Op.fwd, (m.tanh_zero x).mpr hx]⟩
  · intro op g i e he
    unfold Value.mkUnary
    rw [he]

theorem claim5_witness :
    Value.mkUnary defaultModel .log (leafGraph 0) 0 = .error .domainError :=
  (claim5_domain_errors defaultModel).2.2.2.2 .log (leafGraph 0) 0
    .domainError (by simp [Op.fwd, leafGraph, Graph.valAt, Graph.nodeAt,
      List.getD])

/-- C6: calling `.log()` on a node whose value is zero or negative raises
the domain error during the eager forward evaluation; the constructor
returns no node (the error propagates before `Value(...)` is built). -/
theorem claim6_log_nonpositive (m : MathModel) (g : Graph) (i : Nat)
    (h : g.valAt i ≤ 0) :
    Value.unaryMethod m .log g i = .error .domainError := by
  unfold Value.unaryMethod Value.mkUnary
  have hf : Op.fwd m .log [g.valAt i] = .error .domainError := by
    simp [Op.fwd, h]
  rw [hf]

theorem claim6_witness :
    Value.unaryMethod defaultModel .log (leafGraph 0) 0 = .error .domainError :=
  claim6_log_nonpositive defaultModel (leafGraph 0) 0 (by decide)

/-- C8: `backward` changes nothing but gradients: every node keeps its
`value`, `op`, `prev` and `label`, the graph keeps its node count, and a
node that is not reachable from the root is completely untouched (its
`grad` included). -/
theorem claim8_backward_frame (m : MathModel) (g : Graph) (hg : g.WF)
    (root : Nat) :
    (∀ i, ((backward m g hg root).nodeAt i).value = (g.nodeAt i).value ∧
        ((backward m g hg root).nodeAt i).op = (g.nodeAt i).op ∧
        ((backward m g hg root).nodeAt i).prev = (g.nodeAt i).prev ∧
        ((backward m g hg root).nodeAt i).label = (g.nodeAt i).label) ∧
    (backward m g hg root).length = g.length ∧
    (∀ i, ¬ g.Reaches root i →
      (backward m g hg root).nodeAt i = g.nodeAt i) := by
  have hsh := shape_backward m g hg root
  refine ⟨fun i => ?_, Graph.length_of_shape_eq hsh,
    fun i h => nodeAt_backward_of_unreachable m g hg root h⟩
  have hz := zeroGrad_nodeAt_of_shape_eq hsh i
  have hv := congrArg Node.value hz
  have ho := congrArg Node.op hz
  have hp := congrArg Node.prev hz
  have hl := congrArg Node.label hz
  exact ⟨hv, ho, hp, hl⟩

theorem claim8_witness :
    ((backward defaultModel (mulSelfGraph 3) (mulSelfGraph_wf 3) 1).nodeAt
        1).value = ((mulSelfGraph 3).nodeAt 1).value :=
  ((claim8_backward_frame defaultModel (mulSelfGraph 3) (mulSelfGraph_wf 3)
      1).1 1).1

/-- C9: supplying an operand that is neither a `Value` nor coercible by
`float(...)` makes every binary operator raise the coercion `TypeError`
before any node is constructed: the call returns the error (never an
`.ok` graph), so the caller's graph — every node built before the failing
call, with its `value` and `grad` — is left untouched. -/
theorem claim9_type_coercion (m : MathModel) (g : Graph) (i : Nat) :
    Value.vadd m g i .nonNum = .error .typeCoercionError ∧
    Value.vradd m g i .nonNum = .error .typeCoercionError ∧
    Value.vmul m g i .nonNum = .error .typeCoercionError ∧
    Value.vrmul m g i .nonNum = .error .typeCoercionError ∧
    Value.vsub m g i .nonNum = .error .typeCoercionError ∧
    Value.vrsub m g i .nonNum = .error .typeCoercionError ∧
    Value.vdiv m g i .nonNum = .error .typeCoercionError ∧
    Value.vrdiv m g i .nonNum = .error .typeCoercionError ∧
    Value.vpow m g i .nonNum = .error .typeCoercionError ∧
    Value.vrpow m g i .nonNum = .error .typeCoercionError :=
  ⟨rfl, rfl, rfl, rfl, rfl, rfl, rfl, rfl, rfl, rfl⟩

/-- C10: dividing by a node whose value is `0.0` raises `ZeroDivisionError`
during the eager forward evaluation (`Div.forward` is `a / b`), for a node
numerator via `__truediv__` and for a literal numerator via `__rtruediv__`;
no node is produced. -/
theorem claim10_div_zero (m : MathModel) (g : Graph) (i j : Nat)
    (hj : g.valAt j = 0) :
    Value.vdiv m g i (.node j) = .error .zeroDivisionError ∧
    (j < g.length → ∀ q : ℚ,
      Value.vrdiv m g j (.num q) = .error .zeroDivisionError) := by
  constructor
  · show Value.mkBin m .div g i j = .error .zeroDivisionError
    unfold Value.mkBin
    have hf : Op.fwd m .div [g.valAt i, g.valAt j] = .error .zeroDivisionError := by
      simp [Op.fwd, hj]
    rw [hf]
  · intro hjlen q
    show Value.mkBin m .div (g.pushLeaf q) g.length j = .error .zeroDivisionError
    unfold Value.mkBin
    have hval : (g.pushLeaf q).valAt j = 0 := by
      rw [Graph.pushLeaf, Graph.valAt_push_lt g _ hjlen]
      exact hj
    have hf : Op.fwd m .div [(g.pushLeaf q).valAt g.length,
        (g.pushLeaf q).valAt j] = .error .zeroDivisionError := by
      simp [Op.fwd, hval]
    rw [hf]

theorem claim10_witness :
    Value.vdiv defaultModel (leafGraph 0) 0 (.node 0) =
      .error .zeroDivisionError :=
  (claim10_div_zero defaultModel (leafGraph 0) 0 0 rfl).1

/-- C7: every node an operation constructor returns satisfies, at
construction time: `prev` is exactly the operand indices in argument order
(two for a binary operator's `mkBin` tail, one for `__neg__` and the unary
methods' `mkUnary` tail — the arity the operation requires), its `value`
is the result of the operation's `forward` on the operands' values, and
its `grad` starts at `0.0`.  Pushing the node does not disturb the
operands' stored values. -/
theorem claim7_constructed_node_invariants (m : MathModel) :
    (∀ (op : Op) (g : Graph) (i j : Nat) (g' : Graph) (k : Nat),
      op ∈ ([.add, .mul, .sub, .div, .pow] : List Op) →
      Value.mkBin m op g i j = .ok (g', k) →
      k = g.length ∧
      (g'.nodeAt k).prev = [i, j] ∧
      (g'.nodeAt k).prev.length = op.arity ∧
      Op.fwd m op [g.valAt i, g.valAt j] = .ok ((g'.nodeAt k).value) ∧
      (g'.nodeAt k).grad = 0 ∧
      (i < g.length → g'.valAt i = g.valAt i) ∧
      (j < g.length → g'.valAt j = g.valAt j)) ∧
    (∀ (op : Op) (g : Graph) (i : Nat) (g' : Graph) (k : Nat),
      op.arity = 1 →
      Value.mkUnary m op g i = .ok (g', k) →
      k = g.length ∧
      (g'.nodeAt k).prev = [i] ∧
      (g'.nodeAt k).prev.length = op.arity ∧
      Op.fwd m op [g.valAt i] = .ok ((g'.nodeAt k).value) ∧
      (g'.nodeAt k).grad = 0 ∧
      (i < g.length → g'.valAt i = g.valAt i)) := by
  constructor
  · intro op g i j g' k hop hmk
    unfold Value.mkBin at hmk
    cases hfw : Op.fwd m op [g.valAt i, g.valAt j] with
    | error e => rw [hfw] at hmk; exact absurd hmk (by simp)
    | ok v =>
      rw [hfw] at hmk
      simp only [Except.ok.injEq, Prod.mk.injEq] at hmk
      obtain ⟨hg', hk⟩ := hmk
      subst hg'
      subst hk
      rw [Graph.nodeAt_push_self]
      have harity : Op.arity op = 2 := by
        rcases List.mem_cons.mp hop with rfl | hop
        · rfl
        rcases List.mem_cons.mp hop with rfl | hop
        · rfl
        rcases List.mem_cons.mp hop with rfl | hop
        · rfl
        rcases List.mem_cons.mp hop with rfl | hop
        · rfl
        rcases List.mem_cons.mp hop with rfl | hop
        · rfl
        · exact absurd hop (List.not_mem_nil op)
      exact ⟨rfl, rfl, harity.symm, rfl, rfl,
        fun hi => Graph.valAt_push_lt g _ hi,
        fun hj => Graph.valAt_push_lt g _ hj⟩
  · intro op g i g' k harity hmk
    unfold Value.mkUnary at hmk
    cases hfw : Op.fwd m op [g.valAt i] with
    | error e => rw [hfw] at hmk; exact absurd hmk (by simp)
    | ok v =>
      rw [hfw] at hmk
      simp only [Except.ok.injEq, Prod.mk.injEq] at hmk
      obtain ⟨hg', hk⟩ := hmk
      subst hg'
      subst hk
      rw [Graph.nodeAt_push_self]
      exact ⟨rfl, rfl, by rw [harity]; rfl, rfl, rfl,
        fun hi => Graph.valAt_push_lt g _ hi⟩

theorem claim7_witness :
    ((Graph.mk [⟨1, 0, none, [], none⟩,
        ⟨2, 0, some .add, [0, 0], none⟩]).nodeAt 1).prev = [0, 0] :=
  ((claim7_constructed_node_invariants defaultModel).1 .add (leafGraph 1) 0 0
      (Graph.mk [⟨1, 0, none, [], none⟩, ⟨2, 0, some .add, [0, 0], none⟩]) 1
      (by decide)
      (by simp [Value.mkBin, Op.fwd, leafGraph, Graph.valAt, Graph.nodeAt,
        List.getD, Graph.push, Graph.length]
          norm_num)).2.1

end Autodiff
